import Mathlib

/-!
Verification development for the TUMmer sources (`src/process.c`, `src/io.c`,
`src/tummer.c`).  The C code is shallowly embedded: `size_t` values become
`Nat` (with an explicit wrap modulo `2 ^ 64` at the places where the C
arithmetic can wrap), signed `int` lengths become `Int`, doubles become `ℚ`
(the floating-point expressions of `shuprop` use only integer exponents, so
the rational model mirrors the expression structure exactly), and the
`printf` calls become construction of output-line strings.
-/

namespace TUMmer

/-- Width of `size_t`: the C code computes in 64-bit unsigned arithmetic. -/
def W : Nat := 2 ^ 64

/-- Decrement of a `size_t` value: `x - 1` wraps to `2 ^ 64 - 1` when `x = 0`,
as in the C expressions `this_pos_S - 1` and `this_pos_S--`. -/
def wsub1 (x : Nat) : Nat := (x + (W - 1)) % W

/-- Decimal rendering of one `%8zu` conversion: the decimal digits of `n`
right-aligned in a field of eight characters padded with spaces (wider numbers
are printed in full, as printf does). -/
def pad8 (n : Nat) : String :=
  let s := toString n
  String.mk (List.replicate (8 - s.length) ' ') ++ s

/-- One output line of `printf("%8zu  %8zu  %8zu\n", a, b, c)`
(process.c line 169). -/
def fmtLine (a b c : Nat) : String :=
  pad8 a ++ "  " ++ pad8 b ++ "  " ++ pad8 c ++ "\n"

/-- One output line of `printf("%zu %zu %zu\n", a, 0, c)` (process.c line 179),
the terminal identical-sequences note. -/
def identLine (a c : Nat) : String :=
  toString a ++ " " ++ toString (0 : Nat) ++ " " ++ toString c ++ "\n"

/-- Modelled from the spec: `lcp_inter_t` is declared in `esa.h`, which is not
among the sources.  Per §3 of the spec an LCP interval is a triple `(i, j, ℓ)`
of SA-range bounds and a common-prefix length; `process.c` line 158 tests
`inter.l <= 0`, so the length field is signed. -/
structure lcp_inter_t where
  i : Nat
  j : Nat
  l : Int
deriving DecidableEq

/-- Modelled from the spec: the parts of the enhanced suffix array `esa_s`
(declared in `esa.h`, not among the sources) that `dist_anchor` reads: the
subject text `S` (as a total function on indices, so that out-of-bounds reads
have a modelled value), the suffix array `SA`, and the length `len`.  Character
and index reads are byte values, hence `Nat`. -/
structure esa_s where
  len : Nat
  S : Nat → Nat
  SA : Nat → Nat

/-- Clamping of the signed interval length: `inter.l <= 0 ? 0 : inter.l`
(process.c line 158). -/
def clampLen (l : Int) : Nat := if l ≤ 0 then 0 else l.toNat

/-- The left-extension loop of `dist_anchor` (process.c lines 161-166):
`while (this_pos_Q > 0 && query[this_pos_Q - 1] == C->S[this_pos_S - 1])
 { this_pos_S--; this_pos_Q--; this_length++; }`.
Note the guard does not test `this_pos_S > 0`; the index `this_pos_S - 1` is
the wrapped `size_t` difference `wsub1 posS`.  Structural recursion on `posQ`,
which the body decrements. -/
def leftExtGo (S Q : Nat → Nat) : Nat → Nat → Nat → Nat × Nat × Nat
  | posS, 0, len => (posS, 0, len)
  | posS, posQ + 1, len =>
    if Q posQ = S (wsub1 posS) then
      leftExtGo S Q (wsub1 posS) posQ (len + 1)
    else
      (posS, posQ + 1, len)

/-- The indices of `C->S` read by the guard of the left-extension loop: each
evaluation of the guard with `this_pos_Q > 0` reads `C->S[this_pos_S - 1]`
(the `&&` short-circuits when `this_pos_Q == 0`). -/
def leftExtReads (S Q : Nat → Nat) : Nat → Nat → List Nat
  | _, 0 => []
  | posS, posQ + 1 =>
    wsub1 posS ::
      (if Q posQ = S (wsub1 posS) then leftExtReads S Q (wsub1 posS) posQ else [])

/-- The per-position work of `dist_anchor`'s main loop up to and including the
left extension (process.c lines 155-166): call `get_match_cached` (abstracted
as the oracle `gm`, a function of the current query position, since subject,
query and query length are fixed for one `dist_anchor` call), clamp the length,
look up `this_pos_S = C->SA[inter.i]`, and run the left extension.  Returns
`(this_pos_S, this_pos_Q, this_length)` after extension. -/
def anchorExt (C : esa_s) (Q : Nat → Nat) (gm : Nat → lcp_inter_t) (posQ : Nat) :
    Nat × Nat × Nat :=
  leftExtGo C.S Q (C.SA (gm posQ).i) posQ (clampLen (gm posQ).l)

/-- One iteration of `dist_anchor`'s main loop (process.c lines 155-174):
the optional emitted line (`inter.i == inter.j && this_length >= threshold`)
and the next value of `this_pos_Q` (`this_pos_Q += this_length + 1`). -/
def distAnchorStep (C : esa_s) (Q : Nat → Nat) (threshold : Nat)
    (gm : Nat → lcp_inter_t) (posQ : Nat) : Option String × Nat :=
  let inter := gm posQ
  let e := anchorExt C Q gm posQ
  (if inter.i = inter.j ∧ threshold ≤ e.2.2 then
    some (fmtLine (e.1 + 1) (e.2.1 + 1) e.2.2)
  else
    none,
  e.2.1 + e.2.2 + 1)

/-- The main loop of `dist_anchor` (process.c lines 154-175), with fuel:
`none` means the fuel ran out before `this_pos_Q` reached `query_length`
(`dist_anchor` itself runs it with fuel `query_length`, which always
suffices; see the termination theorem). -/
def distAnchorLoop (C : esa_s) (Q : Nat → Nat) (m threshold : Nat)
    (gm : Nat → lcp_inter_t) : Nat → Nat → Option (List String)
  | 0, posQ => if posQ < m then none else some []
  | fuel + 1, posQ =>
    if posQ < m then
      match distAnchorLoop C Q m threshold gm fuel
          (distAnchorStep C Q threshold gm posQ).2 with
      | none => none
      | some rest => some ((distAnchorStep C Q threshold gm posQ).1.toList ++ rest)
    else
      some []

/-- The sequence of values taken by `this_pos_Q` at the top of the main loop
(the iteration positions), with the same fuel discipline as
`distAnchorLoop`. -/
def iterPositions (C : esa_s) (Q : Nat → Nat) (m threshold : Nat)
    (gm : Nat → lcp_inter_t) : Nat → Nat → List Nat
  | 0, _ => []
  | fuel + 1, posQ =>
    if posQ < m then
      posQ :: iterPositions C Q m threshold gm fuel
        (distAnchorStep C Q threshold gm posQ).2
    else
      []

/-- The multiplicative loop of `binomial_coefficient` (process.c lines 79-82):
`for (i = 1; i <= k; i++) { res *= n - k + i; res /= i; }`, run for `rem`
further iterations starting at counter value `i`.  The product is a `size_t`
product, hence the wrap modulo `2 ^ 64`; the division is `size_t` (truncating)
division. -/
def binom_iter (n k : Nat) : Nat → Nat → Nat → Nat
  | 0, _, res => res
  | rem + 1, i, res => binom_iter n k rem (i + 1) (res * (n - k + i) % W / i)

/-- `binomial_coefficient` (process.c lines 64-85).  The arguments are
`size_t`, so the guard `n <= 0` is the test `n = 0`; subtractions are guarded
(`k ≤ n` whenever `n - k` is formed), so plain `Nat` subtraction equals the
`size_t` difference. -/
def binomial_coefficient (n k0 : Nat) : Nat :=
  if n ≤ 0 ∨ k0 > n then 0
  else if k0 = 0 ∨ k0 = n then 1
  else
    let k := if k0 > n - k0 then n - k0 else k0
    binom_iter n k k 1 1

/-- The summation loop of `shuprop` (process.c lines 107-117), iterating `k`
from its current value for `rem` further iterations (the C loop runs
`k = 0..x`, so `shuprop` starts it with `rem = x + 1`): accumulate
`s += 2^x * (t * (1-t)^l) * C(x,k)` with `t = p^k * (0.5-p)^(x-k)`, and
saturate to `1.0` (with a break) as soon as `s >= 1.0`.  All exponents in the
C code are integers, so the `ℚ` powers mirror the `pow` calls exactly. -/
def shupropGo (x : Nat) (p : ℚ) (l : Nat) : Nat → Nat → ℚ → ℚ
  | 0, _, s => s
  | rem + 1, k, s =>
    let t : ℚ := p ^ k * (1 / 2 - p) ^ (x - k)
    let s' := s + 2 ^ x * (t * (1 - t) ^ l) * (binomial_coefficient x k : ℚ)
    if 1 ≤ s' then 1 else shupropGo x p l rem (k + 1) s'

/-- `shuprop` (process.c lines 100-120): cumulative shustring-length
probability, with doubles modelled by `ℚ`. -/
def shuprop (x : Nat) (p : ℚ) (l : Nat) : ℚ := shupropGo x p l (x + 1) 0 0

/-- The `while (prop < 1 - p) { prop = shuprop(x, g/2, l); x++; }` loop of
`minAnchorLength` (process.c lines 41-44), with fuel: `none` means the fuel
was exhausted with the guard still true (the C loop would keep running). -/
def minAnchorLengthLoop (p g : ℚ) (l : Nat) : Nat → Nat → ℚ → Option Nat
  | 0, x, prop => if prop < 1 - p then none else some x
  | fuel + 1, x, prop =>
    if prop < 1 - p then
      minAnchorLengthLoop p g l fuel (x + 1) (shuprop x (g / 2) l)
    else
      some x

/-- `minAnchorLength` (process.c lines 37-47): starts with `x = 1`,
`prop = 0.0`, runs the loop, and returns the final `x`. -/
def minAnchorLength (fuel : Nat) (p g : ℚ) (l : Nat) : Option Nat :=
  minAnchorLengthLoop p g l fuel 1 0

/-- `dist_anchor` (process.c lines 129-181), abstracted over the globals
`MIN_LENGTH` and `RANDOM_ANCHOR_PROP` and over the `get_match_cached` oracle
`gm`.  The threshold is `MIN_LENGTH` when nonzero and otherwise
`minAnchorLength(RANDOM_ANCHOR_PROP, gc, C->len)` (lines 146-151, with `fuelA`
fuel for that loop); the main loop gets fuel `query_length`, which suffices
(see the termination theorem); the terminal identical-sequences branch
(lines 177-180) compares the never-reassigned `last_length = 0` against
`query_length` and prints `last_pos_S, 0, query_length` unformatted. -/
def dist_anchor (MIN_LENGTH : Nat) (RANDOM_ANCHOR_PROP : ℚ) (fuelA : Nat)
    (C : esa_s) (query : Nat → Nat) (query_length : Nat) (gc : ℚ)
    (gm : Nat → lcp_inter_t) : Option (List String) :=
  let last_pos_S : Nat := 0
  let last_length : Nat := 0
  match (if MIN_LENGTH ≠ 0 then some MIN_LENGTH
         else minAnchorLength fuelA RANDOM_ANCHOR_PROP gc C.len) with
  | none => none
  | some threshold =>
    match distAnchorLoop C query query_length threshold gm query_length 0 with
    | none => none
    | some lines =>
      some (lines ++
        (if query_length ≤ last_length then [identLine last_pos_S query_length]
         else []))

/-- The `strrchr(file_name, '/')` step of `read_fasta_join` (io.c lines
49-50): `left` is the suffix of the path following the last `'/'`, or the
whole path when there is none. -/
def afterLastSlash : List Char → List Char
  | [] => []
  | c :: cs =>
    if '/' ∈ cs then afterLastSlash cs
    else if c = '/' then cs
    else c :: cs

/-- The joined-sequence name computed by `read_fasta_join` (io.c lines
49-57): `strchrnul(left, '.')` finds the first `'.'` of `left` (or its end),
and `strndup(left, dot - left)` copies the characters before it. -/
def joined_name (path : List Char) : List Char :=
  (afterLastSlash path).takeWhile (fun c => c ≠ '.')

/-- The command-line options of tummer.c that touch the global `FLAGS`
(cases `'b'`, `'j'`, `'r'`, `'v'` of the `getopt_long` switch). -/
inductive Opt where
  | b | j | r | v
deriving DecidableEq

/-- The bits of the global `FLAGS` bitmask (declared in `global.h`, not among
the sources) that tummer.c manipulates, as one boolean per bit. -/
structure Flags where
  forward : Bool
  revcomp : Bool
  join : Bool
  verbose : Bool
  extraVerbose : Bool
deriving DecidableEq

/-- The initial value of `FLAGS` (tummer.c line 43): `F_FORWARD` alone. -/
def initFlags : Flags := ⟨true, false, false, false, false⟩

/-- The effect of one option on `FLAGS` (tummer.c lines 89-98):
`'b'` does `FLAGS |= F_FORWARD | F_REVCOMP`; `'r'` does
`FLAGS &= ~F_FORWARD; FLAGS |= F_REVCOMP`; `'j'` does `FLAGS |= F_JOIN`;
`'v'` sets `F_EXTRA_VERBOSE` when `F_VERBOSE` is already set, else
`F_VERBOSE`. -/
def applyOpt (f : Flags) : Opt → Flags
  | Opt.b => ⟨true, true, f.join, f.verbose, f.extraVerbose⟩
  | Opt.r => ⟨false, true, f.join, f.verbose, f.extraVerbose⟩
  | Opt.j => ⟨f.forward, f.revcomp, true, f.verbose, f.extraVerbose⟩
  | Opt.v =>
    if f.verbose then ⟨f.forward, f.revcomp, f.join, f.verbose, true⟩
    else ⟨f.forward, f.revcomp, f.join, true, f.extraVerbose⟩

/-- The state of `FLAGS` after `getopt_long` has processed a list of
options. -/
def parseOpts (opts : List Opt) : Flags := opts.foldl applyOpt initFlags

/-- The file-reading loop of `main` (tummer.c lines 163-178):
`for (;; minfiles--) { if (!*argv) { if (minfiles <= 0) break;
file_name = "-"; } else { file_name = *argv++; } read(file_name); }`.
Returns the list of file names passed to `read_fasta`/`read_fasta_join`, in
order; `minfiles` is a C `int` and may go negative, hence `Int`. -/
def fileLoop : List String → Int → List String
  | a :: rest, minfiles => a :: fileLoop rest (minfiles - 1)
  | [], minfiles =>
    if h : minfiles ≤ 0 then []
    else "-" :: fileLoop [] (minfiles - 1)
termination_by args minfiles => (args.length, minfiles.toNat)
decreasing_by
· simp only [List.length_cons]
  exact Prod.Lex.left _ _ (Nat.lt_succ_self _)
· exact Prod.Lex.right _ (by omega)

/-- The inputs read by `main` (tummer.c line 162 onward): `minfiles` starts
at 2 in join mode and 1 otherwise. -/
def inputsRead (join : Bool) (args : List String) : List String :=
  fileLoop args (if join then 2 else 1)

/-- Test fixture: a two-character subject whose every memory cell reads 65
and whose suffix array maps every rank to position 0. -/
def exEsa : esa_s := ⟨2, fun _ => 65, fun _ => 0⟩

/-- Test fixture: the constant query text 65. -/
def exQ : Nat → Nat := fun _ => 65

/-- Test fixture: an oracle returning the singleton interval `(0, 0)` with
match length 1 at every position. -/
def exGmUnique : Nat → lcp_inter_t := fun _ => ⟨0, 0, 1⟩

/-- Test fixture: an oracle returning the non-singleton interval `(0, 1)`
with match length 0 at every position. -/
def exGmWide : Nat → lcp_inter_t := fun _ => ⟨0, 1, 0⟩

/-- Test fixture: an oracle returning the singleton interval `(0, 0)` with
match length 0 at every position. -/
def exGmZero : Nat → lcp_inter_t := fun _ => ⟨0, 0, 0⟩

theorem leftExtGo_sum (S Q : Nat → Nat) :
    ∀ (posQ posS len : Nat),
      (leftExtGo S Q posS posQ len).2.1 + (leftExtGo S Q posS posQ len).2.2 =
        posQ + len := by
  intro posQ
  induction posQ with
  | zero => intro posS len; simp [leftExtGo]
  | succ q ih =>
    intro posS len
    rw [leftExtGo]
    split
    · rw [ih]; omega
    · simp

theorem distAnchorStep_snd (C : esa_s) (Q : Nat → Nat) (τ : Nat)
    (gm : Nat → lcp_inter_t) (p : Nat) :
    (distAnchorStep C Q τ gm p).2 = p + clampLen (gm p).l + 1 := by
  have h := leftExtGo_sum C.S Q p (C.SA (gm p).i) (clampLen (gm p).l)
  simp only [distAnchorStep, anchorExt] at h ⊢
  omega

theorem distAnchorLoop_isSome (C : esa_s) (Q : Nat → Nat) (m τ : Nat)
    (gm : Nat → lcp_inter_t) :
    ∀ fuel p, m - p ≤ fuel → (distAnchorLoop C Q m τ gm fuel p).isSome := by
  intro fuel
  induction fuel with
  | zero =>
    intro p h
    rw [distAnchorLoop]
    rw [if_neg (by omega)]
    simp
  | succ f ih =>
    intro p h
    rw [distAnchorLoop]
    split
    · rename_i hlt
      have hnext := distAnchorStep_snd C Q τ gm p
      have hs := ih (distAnchorStep C Q τ gm p).2 (by rw [hnext]; omega)
      cases hm : distAnchorLoop C Q m τ gm f (distAnchorStep C Q τ gm p).2 with
      | none => rw [hm] at hs; simp at hs
      | some rest => simp [hm]
    · simp

theorem iterPositions_length_le (C : esa_s) (Q : Nat → Nat) (m τ : Nat)
    (gm : Nat → lcp_inter_t) :
    ∀ fuel p, (iterPositions C Q m τ gm fuel p).length ≤ fuel := by
  intro fuel
  induction fuel with
  | zero => intro p; simp [iterPositions]
  | succ f ih =>
    intro p
    rw [iterPositions]
    split
    · simpa using Nat.succ_le_succ (ih _)
    · simp

theorem distAnchorLoop_eq_filterMap (C : esa_s) (Q : Nat → Nat) (m τ : Nat)
    (gm : Nat → lcp_inter_t) :
    ∀ fuel p lines, distAnchorLoop C Q m τ gm fuel p = some lines →
      lines = (iterPositions C Q m τ gm fuel p).filterMap
        (fun q => (distAnchorStep C Q τ gm q).1) := by
  intro fuel
  induction fuel with
  | zero =>
    intro p lines h
    rw [distAnchorLoop] at h
    split at h
    · exact absurd h (by simp)
    · cases h; simp [iterPositions]
  | succ f ih =>
    intro p lines h
    rw [distAnchorLoop] at h
    split at h
    · rename_i hlt
      cases hm : distAnchorLoop C Q m τ gm f (distAnchorStep C Q τ gm p).2 with
      | none => rw [hm] at h; cases h
      | some rest =>
        rw [hm] at h
        cases h
        rw [iterPositions, if_pos hlt, List.filterMap_cons, ← ih _ _ hm]
        cases he : (distAnchorStep C Q τ gm p).1 <;> simp [he]
    · cases h
      rename_i hge
      rw [iterPositions, if_neg hge]
      simp

theorem distAnchorStep_emit_iff (C : esa_s) (Q : Nat → Nat) (τ : Nat)
    (gm : Nat → lcp_inter_t) (p : Nat) (s : String) :
    (distAnchorStep C Q τ gm p).1 = some s ↔
      ((gm p).i = (gm p).j ∧ τ ≤ (anchorExt C Q gm p).2.2 ∧
        s = fmtLine ((anchorExt C Q gm p).1 + 1) ((anchorExt C Q gm p).2.1 + 1)
              ((anchorExt C Q gm p).2.2)) := by
  simp only [distAnchorStep]
  constructor
  · intro h
    split at h
    · rename_i hc
      cases h
      exact ⟨hc.1, hc.2, rfl⟩
    · cases h
  · rintro ⟨h1, h2, rfl⟩
    rw [if_pos ⟨h1, h2⟩]

theorem distAnchorLoop_lines_shape (C : esa_s) (Q : Nat → Nat) (m τ : Nat)
    (gm : Nat → lcp_inter_t) :
    ∀ fuel p lines, distAnchorLoop C Q m τ gm fuel p = some lines →
      ∀ s ∈ lines, ∃ a b L, τ ≤ L ∧ s = fmtLine a b L := by
  intro fuel
  induction fuel with
  | zero =>
    intro p lines h
    rw [distAnchorLoop] at h
    split at h
    · exact absurd h (by simp)
    · cases h; simp
  | succ f ih =>
    intro p lines h
    rw [distAnchorLoop] at h
    split at h
    · cases hm : distAnchorLoop C Q m τ gm f (distAnchorStep C Q τ gm p).2 with
      | none => rw [hm] at h; cases h
      | some rest =>
        rw [hm] at h
        cases h
        intro s hs
        rcases List.mem_append.mp hs with hs1 | hs2
        · cases he : (distAnchorStep C Q τ gm p).1 with
          | none => rw [he] at hs1; simp at hs1
          | some line =>
            rw [he] at hs1
            simp at hs1
            subst hs1
            rcases (distAnchorStep_emit_iff C Q τ gm p s).mp he with ⟨_, h2, h3⟩
            exact ⟨_, _, _, h2, h3⟩
        · exact ih _ _ hm s hs2
    · cases h; simp

theorem dist_anchor_no_tail (ML : Nat) (rap : ℚ) (fuelA : Nat) (C : esa_s)
    (Q : Nat → Nat) (m : Nat) (gc : ℚ) (gm : Nat → lcp_inter_t) (hm : 0 < m) :
    dist_anchor ML rap fuelA C Q m gc gm =
      (match (if ML ≠ 0 then some ML else minAnchorLength fuelA rap gc C.len) with
       | none => none
       | some τ => distAnchorLoop C Q m τ gm m 0) := by
  have hm' : ¬ (m ≤ 0) := by omega
  simp only [dist_anchor]
  simp only [hm', if_false, List.append_nil]
  cases (if ML ≠ 0 then some ML else minAnchorLength fuelA rap gc C.len) with
  | none => rfl
  | some τ =>
    show (match distAnchorLoop C Q m τ gm m 0 with
          | none => none
          | some lines => some lines) = distAnchorLoop C Q m τ gm m 0
    cases distAnchorLoop C Q m τ gm m 0 with
    | none => rfl
    | some lines => rfl

/-- Claim C1.  For every oracle, subject, query and threshold, the output of
the main loop of `dist_anchor` is precisely the per-iteration emissions: an
iteration emits a line exactly when its interval is a singleton
(`inter.i = inter.j`) and the left-extended length reaches the threshold, and
the emitted line is the triple `(pos_S + 1, pos_Q + 1, L)` in 8-wide
right-aligned decimal fields separated by two spaces; non-singleton intervals
emit nothing regardless of the length. -/
theorem claim_C1 (C : esa_s) (Q : Nat → Nat) (m τ : Nat)
    (gm : Nat → lcp_inter_t) (fuel p0 : Nat) (lines : List String)
    (h : distAnchorLoop C Q m τ gm fuel p0 = some lines) :
    lines = (iterPositions C Q m τ gm fuel p0).filterMap
        (fun q => (distAnchorStep C Q τ gm q).1) ∧
    ∀ p s, (distAnchorStep C Q τ gm p).1 = some s ↔
      ((gm p).i = (gm p).j ∧ τ ≤ (anchorExt C Q gm p).2.2 ∧
        s = fmtLine ((anchorExt C Q gm p).1 + 1) ((anchorExt C Q gm p).2.1 + 1)
              ((anchorExt C Q gm p).2.2)) :=
  ⟨distAnchorLoop_eq_filterMap C Q m τ gm fuel p0 lines h,
   fun p s => distAnchorStep_emit_iff C Q τ gm p s⟩

/-- Witness for claim C1 at a concrete run that emits one line. -/
theorem claim_C1_witness :
    [fmtLine 1 1 1] = (iterPositions exEsa exQ 1 1 exGmUnique 1 0).filterMap
        (fun q => (distAnchorStep exEsa exQ 1 exGmUnique q).1) ∧
    ∀ p s, (distAnchorStep exEsa exQ 1 exGmUnique p).1 = some s ↔
      (((exGmUnique p).i = (exGmUnique p).j ∧
        1 ≤ (anchorExt exEsa exQ exGmUnique p).2.2 ∧
        s = fmtLine ((anchorExt exEsa exQ exGmUnique p).1 + 1)
              ((anchorExt exEsa exQ exGmUnique p).2.1 + 1)
              ((anchorExt exEsa exQ exGmUnique p).2.2))) :=
  claim_C1 exEsa exQ 1 1 exGmUnique 1 0 [fmtLine 1 1 1] (by decide)

/-- Claim C2 (refutation record).  At subject length 2 with all memory cells
equal to 65, query position 1 and a singleton interval whose suffix-array
position is 0, the left-extension loop of `dist_anchor` executes its body with
`this_pos_S == 0` (the final state has the length incremented to 1 and
`this_pos_S` wrapped to `2 ^ 64 - 1`), and its guard reads `C->S` at the
wrapped index `2 ^ 64 - 1`, which is at least the subject length: the loop
guard lacks the `this_pos_S > 0` test the specification prescribes. -/
theorem claim_C2 :
    anchorExt exEsa exQ exGmZero 1 = (2 ^ 64 - 1, 0, 1) ∧
    (2 ^ 64 - 1) ∈ leftExtReads exEsa.S exQ 0 1 ∧
    exEsa.len ≤ 2 ^ 64 - 1 := by
  decide

/-- Claim C3.  For every oracle, subject, query and threshold: after each
iteration of `dist_anchor`'s main loop the cursor equals its value at the
start of the iteration plus the clamped `get_match_cached` length plus one
(so it advances by at least 1); consequently the loop started with fuel equal
to the query length always completes, and runs at most `query_length`
iterations. -/
theorem claim_C3 (C : esa_s) (Q : Nat → Nat) (m τ : Nat)
    (gm : Nat → lcp_inter_t) :
    (∀ p, (distAnchorStep C Q τ gm p).2 = p + clampLen (gm p).l + 1) ∧
    (distAnchorLoop C Q m τ gm m 0).isSome ∧
    (iterPositions C Q m τ gm m 0).length ≤ m :=
  ⟨fun p => distAnchorStep_snd C Q τ gm p,
   distAnchorLoop_isSome C Q m τ gm m 0 (by omega),
   iterPositions_length_le C Q m τ gm m 0⟩

/-- Claim C6.  For every query of positive length, the emission threshold of
`dist_anchor` is `MIN_LENGTH` when that is nonzero and otherwise the value
computed by `minAnchorLength(RANDOM_ANCHOR_PROP, gc, C->len)`: every line the
call emits is a match line whose length reaches that threshold. -/
theorem claim_C6 (ML : Nat) (rap : ℚ) (fuelA : Nat) (C : esa_s)
    (Q : Nat → Nat) (m : Nat) (gc : ℚ) (gm : Nat → lcp_inter_t)
    (lines : List String) (hm : 0 < m)
    (h : dist_anchor ML rap fuelA C Q m gc gm = some lines) :
    ∃ τ, (if ML ≠ 0 then τ = ML
          else minAnchorLength fuelA rap gc C.len = some τ) ∧
      ∀ s ∈ lines, ∃ a b L, τ ≤ L ∧ s = fmtLine a b L := by
  rw [dist_anchor_no_tail ML rap fuelA C Q m gc gm hm] at h
  by_cases hML : ML ≠ 0
  · rw [if_pos hML] at h
    exact ⟨ML, by rw [if_pos hML],
      distAnchorLoop_lines_shape C Q m ML gm m 0 lines h⟩
  · rw [if_neg hML] at h
    cases hτ : minAnchorLength fuelA rap gc C.len with
    | none => rw [hτ] at h; cases h
    | some τ =>
      rw [hτ] at h
      exact ⟨τ, by rw [if_neg hML],
        distAnchorLoop_lines_shape C Q m τ gm m 0 lines h⟩

/-- Witness for claim C6 at a concrete run with `MIN_LENGTH = 1` emitting one
line. -/
theorem claim_C6_witness :
    ∃ τ, (if (1 : Nat) ≠ 0 then τ = 1
          else minAnchorLength 0 0 0 exEsa.len = some τ) ∧
      ∀ s ∈ [fmtLine 1 1 1], ∃ a b L, τ ≤ L ∧ s = fmtLine a b L :=
  claim_C6 1 0 0 exEsa exQ 1 0 exGmUnique [fmtLine 1 1 1] (by decide) (by decide)

/-- Claim C9.  For every query of positive length the terminal
identical-sequences branch of `dist_anchor` contributes nothing: the output is
exactly the main loop's output, because `last_length` stays 0 and the guard
`last_length >= query_length` can only hold for an empty query. -/
theorem claim_C9 (ML : Nat) (rap : ℚ) (fuelA : Nat) (C : esa_s)
    (Q : Nat → Nat) (m : Nat) (gc : ℚ) (gm : Nat → lcp_inter_t) (hm : 0 < m) :
    dist_anchor ML rap fuelA C Q m gc gm =
      (match (if ML ≠ 0 then some ML else minAnchorLength fuelA rap gc C.len) with
       | none => none
       | some τ => distAnchorLoop C Q m τ gm m 0) :=
  dist_anchor_no_tail ML rap fuelA C Q m gc gm hm

/-- Witness for claim C9 at a concrete run of length 1. -/
theorem claim_C9_witness :
    dist_anchor 1 0 0 exEsa exQ 1 0 exGmWide =
      (match (if (1 : Nat) ≠ 0 then some 1
              else minAnchorLength 0 0 0 exEsa.len) with
       | none => none
       | some τ => distAnchorLoop exEsa exQ 1 τ exGmWide 1 0) :=
  claim_C9 1 0 0 exEsa exQ 1 0 exGmWide (by decide)

theorem minAnchorLengthLoop_finds (p g : ℚ) (l : Nat) (x0 : Nat)
    (hge : 1 - p ≤ shuprop x0 (g / 2) l)
    (hmin : ∀ y, 1 ≤ y → y < x0 → shuprop y (g / 2) l < 1 - p) :
    ∀ fuel x prop, 1 ≤ x → x ≤ x0 → prop < 1 - p → x0 - x < fuel →
      minAnchorLengthLoop p g l fuel x prop = some (x0 + 1) := by
  intro fuel
  induction fuel with
  | zero => intro x prop _ _ _ hf; omega
  | succ f ih =>
    intro x prop hx hxle hprop hf
    rw [minAnchorLengthLoop, if_pos hprop]
    by_cases hx0eq : x = x0
    · subst hx0eq
      cases f with
      | zero => rw [minAnchorLengthLoop, if_neg (not_lt.mpr hge)]
      | succ f' => rw [minAnchorLengthLoop, if_neg (not_lt.mpr hge)]
    · exact ih (x + 1) (shuprop x (g / 2) l) (by omega) (by omega)
        (hmin x hx (by omega)) (by omega)

/-- Claim C4 (amended).  When `p < 1` and `x0` is the smallest value `x ≥ 1`
with `shuprop(x, g/2, l) ≥ 1 - p`, the loop of `minAnchorLength` terminates
(any fuel of at least `x0` iterations suffices) and the function returns
`x0 + 1`.  The original claim also asserted this for `p = 1`, where the loop
guard `prop < 1 - p` is false immediately and the function returns 1 instead
of `x0 + 1`; see the counterexample. -/
theorem claim_C4 (p g : ℚ) (l : Nat) (x0 fuel : Nat) (hp : p < 1)
    (hx0 : 1 ≤ x0) (hge : 1 - p ≤ shuprop x0 (g / 2) l)
    (hmin : ∀ y, 1 ≤ y → y < x0 → shuprop y (g / 2) l < 1 - p)
    (hfuel : x0 ≤ fuel) :
    minAnchorLength fuel p g l = some (x0 + 1) :=
  minAnchorLengthLoop_finds p g l x0 hge hmin fuel 1 0 le_rfl hx0
    (by linarith) (by omega)

/-- Witness for claim C4: at `p = 1/2`, `g = 1`, `l = 1` the smallest
`x ≥ 1` with `shuprop(x, 1/2, 1) ≥ 1/2` is `x0 = 1`, and `minAnchorLength`
returns 2. -/
theorem claim_C4_witness : minAnchorLength 1 (1 / 2) 1 1 = some 2 :=
  claim_C4 (1 / 2) 1 1 1 1 (by norm_num) (by omega)
    (by norm_num [shuprop, shupropGo, binomial_coefficient, binom_iter])
    (by intro y h1 h2; omega) (by omega)

/-- Claim C4 counterexample.  At `p = 1` (allowed by the claim's range
`[0, 1]`), with `g = 1` and `l = 1`, the smallest `x ≥ 1` with
`shuprop(x, g/2, l) ≥ 1 - p = 0` is `x0 = 1` (the value is `1/2 ≥ 0`), so the
claim demands the return value `x0 + 1 = 2`; but the loop guard
`prop < 1 - p` is false at entry and `minAnchorLength` returns 1. -/
theorem claim_C4_counterexample :
    minAnchorLength 1 1 1 1 = some 1 ∧
    1 - (1 : ℚ) ≤ shuprop 1 ((1 : ℚ) / 2) 1 ∧ (1 : Nat) ≠ 1 + 1 := by
  refine ⟨by norm_num [minAnchorLength, minAnchorLengthLoop], ?_, by omega⟩
  norm_num [shuprop, shupropGo, binomial_coefficient, binom_iter]

theorem choose_le_two_pow (n : Nat) : ∀ k, Nat.choose n k ≤ 2 ^ n := by
  induction n with
  | zero =>
    intro k
    cases k with
    | zero => simp
    | succ k => simp [Nat.choose]
  | succ n ih =>
    intro k
    cases k with
    | zero => simpa using Nat.one_le_two_pow
    | succ k =>
      rw [Nat.choose_succ_succ, pow_succ]
      calc Nat.choose n k + Nat.choose n (k + 1) ≤ 2 ^ n + 2 ^ n :=
            Nat.add_le_add (ih k) (ih (k + 1))
        _ = 2 ^ n * 2 := by ring

theorem binom_iter_choose (n k : Nat) (hn : n ≤ 30) (hk : k ≤ n) :
    ∀ rem i, 1 ≤ i → i + rem = k + 1 →
      binom_iter n k rem i (Nat.choose (n - k + i - 1) (i - 1)) =
        Nat.choose n k := by
  intro rem
  induction rem with
  | zero =>
    intro i h1 h2
    have hik : i = k + 1 := by omega
    subst hik
    rw [binom_iter]
    have e1 : n - k + (k + 1) - 1 = n := by omega
    have e2 : k + 1 - 1 = k := by omega
    rw [e1, e2]
  | succ r ih =>
    intro i h1 h2
    rw [binom_iter]
    have hik : i ≤ k := by omega
    have hstep : Nat.choose (n - k + i - 1) (i - 1) * (n - k + i) =
        Nat.choose (n - k + i) i * i := by
      have h := Nat.succ_mul_choose_eq (n - k + i - 1) (i - 1)
      have e1 : Nat.succ (n - k + i - 1) = n - k + i := by omega
      have e2 : Nat.succ (i - 1) = i := by omega
      rw [e1, e2] at h
      rw [Nat.mul_comm]
      exact h
    have hbound : Nat.choose (n - k + i - 1) (i - 1) * (n - k + i) < W := by
      have h1' : Nat.choose (n - k + i - 1) (i - 1) ≤ 2 ^ (n - k + i - 1) :=
        choose_le_two_pow _ _
      have h2' : (2 : Nat) ^ (n - k + i - 1) ≤ 2 ^ 29 :=
        Nat.pow_le_pow_right (by omega) (by omega)
      calc Nat.choose (n - k + i - 1) (i - 1) * (n - k + i) ≤ 2 ^ 29 * 30 :=
            Nat.mul_le_mul (h1'.trans h2') (by omega)
        _ < W := by norm_num [W]
    rw [Nat.mod_eq_of_lt hbound, hstep, Nat.mul_div_cancel _ (by omega : 0 < i)]
    have hih := ih (i + 1) (by omega) (by omega)
    have e3 : n - k + (i + 1) - 1 = n - k + i := by omega
    have e4 : i + 1 - 1 = i := by omega
    rw [e3, e4] at hih
    exact hih

/-- Claim C5 (amended).  For every pair `(n, k)` with `n ≤ 30` other than
`(0, 0)`, `binomial_coefficient(n, k)` returns the exact value of the
binomial coefficient (in particular 0 when `k > n`).  At `(0, 0)` the guard
`n <= 0` — which for the unsigned argument is reachable exactly when
`n = 0`, contrary to the claim — fires and the function returns 0 while
`C(0, 0) = 1`; see the counterexample. -/
theorem claim_C5 (n k : Nat) (hn : n ≤ 30) (hnk : ¬(n = 0 ∧ k = 0)) :
    binomial_coefficient n k = Nat.choose n k := by
  unfold binomial_coefficient
  by_cases h0 : n ≤ 0 ∨ k > n
  · rw [if_pos h0]
    rcases h0 with h0 | h0
    · have hn0 : n = 0 := by omega
      subst hn0
      have hk0 : 0 < k := by
        rcases Nat.eq_zero_or_pos k with hk | hk
        · exact absurd ⟨rfl, hk⟩ hnk
        · exact hk
      exact (Nat.choose_eq_zero_of_lt hk0).symm
    · exact (Nat.choose_eq_zero_of_lt h0).symm
  · rw [if_neg h0]
    push_neg at h0
    obtain ⟨hn1, hkn⟩ := h0
    by_cases h1 : k = 0 ∨ k = n
    · rw [if_pos h1]
      rcases h1 with rfl | rfl
      · simp
      · simp
    · rw [if_neg h1]
      push_neg at h1
      obtain ⟨hk0, hkne⟩ := h1
      show binom_iter n (if k > n - k then n - k else k)
        (if k > n - k then n - k else k) 1 1 = Nat.choose n k
      by_cases hsym : k > n - k
      · rw [if_pos hsym]
        have hsub : n - k ≤ n := Nat.sub_le n k
        have hres := binom_iter_choose n (n - k) hn hsub (n - k) 1
          (by omega) (by omega)
        have hinit : Nat.choose (n - (n - k) + 1 - 1) (1 - 1) = 1 := by
          simp
        rw [hinit] at hres
        rw [hres, Nat.choose_symm hkn]
      · rw [if_neg hsym]
        have hres := binom_iter_choose n k hn hkn k 1 (by omega) (by omega)
        have hinit : Nat.choose (n - k + 1 - 1) (1 - 1) = 1 := by simp
        rw [hinit] at hres
        exact hres

/-- Witness for claim C5 at `(n, k) = (5, 2)`. -/
theorem claim_C5_witness : binomial_coefficient 5 2 = Nat.choose 5 2 :=
  claim_C5 5 2 (by omega) (by omega)

/-- Claim C5 counterexample.  At `(n, k) = (0, 0)` the guard `n <= 0` is
reached and `binomial_coefficient` returns 0, while the exact binomial
coefficient `C(0, 0)` is 1. -/
theorem claim_C5_counterexample :
    binomial_coefficient 0 0 = 0 ∧ Nat.choose 0 0 = 1 :=
  ⟨rfl, rfl⟩

theorem afterLastSlash_no_slash : ∀ l : List Char, '/' ∉ afterLastSlash l := by
  intro l
  induction l with
  | nil => simp [afterLastSlash]
  | cons c cs ih =>
    rw [afterLastSlash]
    by_cases h1 : '/' ∈ cs
    · rw [if_pos h1]; exact ih
    · rw [if_neg h1]
      by_cases h2 : c = '/'
      · rw [if_pos h2]; exact h1
      · rw [if_neg h2]
        intro hmem
        rcases List.mem_cons.mp hmem with h | h
        · exact h2 h.symm
        · exact h1 h

theorem afterLastSlash_split : ∀ l : List Char,
    ∃ pre, l = pre ++ afterLastSlash l ∧
      (pre = [] ∨ ∃ p0, pre = p0 ++ ['/']) := by
  intro l
  induction l with
  | nil => exact ⟨[], rfl, Or.inl rfl⟩
  | cons c cs ih =>
    rw [afterLastSlash]
    by_cases h1 : '/' ∈ cs
    · rw [if_pos h1]
      obtain ⟨pre', hsplit, hform⟩ := ih
      rcases hform with rfl | ⟨p0, rfl⟩
      · rw [List.nil_append] at hsplit
        rw [hsplit] at h1
        exact absurd h1 (afterLastSlash_no_slash cs)
      · exact ⟨c :: (p0 ++ ['/']), by rw [List.cons_append, ← hsplit],
          Or.inr ⟨c :: p0, by simp⟩⟩
    · rw [if_neg h1]
      by_cases h2 : c = '/'
      · rw [if_pos h2]
        subst h2
        exact ⟨['/'], rfl, Or.inr ⟨[], rfl⟩⟩
      · rw [if_neg h2]
        exact ⟨[], rfl, Or.inl rfl⟩

theorem takeWhile_not_dot (l : List Char) :
    '.' ∉ l.takeWhile (fun c => c ≠ '.') := by
  intro h
  have := List.mem_takeWhile_imp h
  simp at this

theorem dropWhile_first_dot :
    ∀ (l e : List Char) (c : Char),
      l.dropWhile (fun c => c ≠ '.') = c :: e → c = '.' := by
  intro l
  induction l with
  | nil => intro e c h; cases h
  | cons a as ih =>
    intro e c h
    rw [List.dropWhile_cons] at h
    split at h
    · exact ih e c h
    · rename_i hfalse
      cases h
      simpa using hfalse

/-- Claim C7.  In join mode the name given to the joined sequence is the
suffix of the file path after the last `'/'` (the whole path when there is no
`'/'`), with the extension removed: the basename splits as the computed name
followed by a (possibly empty) remainder beginning with `'.'`, and the name
itself contains no `'.'`. -/
theorem claim_C7 (path : List Char) :
    (∃ pre, path = pre ++ afterLastSlash path ∧ '/' ∉ afterLastSlash path ∧
      (pre = [] ∨ ∃ p0, pre = p0 ++ ['/'])) ∧
    (∃ ext, afterLastSlash path = joined_name path ++ ext ∧
      '.' ∉ joined_name path ∧ (ext = [] ∨ ∃ e, ext = '.' :: e)) := by
  constructor
  · obtain ⟨pre, hsplit, hform⟩ := afterLastSlash_split path
    exact ⟨pre, hsplit, afterLastSlash_no_slash path, hform⟩
  · refine ⟨(afterLastSlash path).dropWhile (fun c => c ≠ '.'),
      (List.takeWhile_append_dropWhile _ _).symm,
      takeWhile_not_dot (afterLastSlash path), ?_⟩
    cases hd : (afterLastSlash path).dropWhile (fun c => c ≠ '.') with
    | nil => exact Or.inl rfl
    | cons c e =>
      have := dropWhile_first_dot (afterLastSlash path) e c hd
      subst this
      exact Or.inr ⟨e, rfl⟩

theorem foldl_applyOpt_preserve (post : List Opt) :
    ∀ f : Flags, (∀ o ∈ post, o ≠ Opt.b ∧ o ≠ Opt.r) →
      (post.foldl applyOpt f).forward = f.forward ∧
      (post.foldl applyOpt f).revcomp = f.revcomp := by
  induction post with
  | nil => intro f _; exact ⟨rfl, rfl⟩
  | cons o rest ih =>
    intro f h
    have ho := h o (List.mem_cons_self o rest)
    have hrest : ∀ o' ∈ rest, o' ≠ Opt.b ∧ o' ≠ Opt.r :=
      fun o' h' => h o' (List.mem_cons_of_mem _ h')
    rw [List.foldl_cons]
    have hstep : (applyOpt f o).forward = f.forward ∧
        (applyOpt f o).revcomp = f.revcomp := by
      cases o with
      | b => exact absurd rfl ho.1
      | r => exact absurd rfl ho.2
      | j => exact ⟨rfl, rfl⟩
      | v => by_cases hv : f.verbose <;> simp [applyOpt, hv]
    obtain ⟨h1, h2⟩ := ih (applyOpt f o) hrest
    exact ⟨h1.trans hstep.1, h2.trans hstep.2⟩

/-- Claim C8.  Flag parsing: each `-b` sets both the forward and the
reverse-complement flag, each `-r` clears the forward flag and sets the
reverse-complement flag, and the later of the two wins: whatever options
`pre` precede it and whatever `FLAGS`-touching options other than `-b`/`-r`
follow it, a final `-r` leaves exactly the reverse pass enabled and a final
`-b` leaves both passes enabled (in particular `-r` alone, with
`pre = post = []`, leaves only the reverse pass). -/
theorem claim_C8 (pre post : List Opt)
    (h : ∀ o ∈ post, o ≠ Opt.b ∧ o ≠ Opt.r) :
    ((parseOpts (pre ++ Opt.r :: post)).forward = false ∧
     (parseOpts (pre ++ Opt.r :: post)).revcomp = true) ∧
    ((parseOpts (pre ++ Opt.b :: post)).forward = true ∧
     (parseOpts (pre ++ Opt.b :: post)).revcomp = true) := by
  unfold parseOpts
  rw [List.foldl_append, List.foldl_append, List.foldl_cons, List.foldl_cons]
  constructor
  · have := foldl_applyOpt_preserve post
      (applyOpt (List.foldl applyOpt initFlags pre) Opt.r) h
    simpa [applyOpt] using this
  · have := foldl_applyOpt_preserve post
      (applyOpt (List.foldl applyOpt initFlags pre) Opt.b) h
    simpa [applyOpt] using this

/-- Witness for claim C8 with `-b` before and `-v -j` after the decisive
flag. -/
theorem claim_C8_witness :
    ((parseOpts ([Opt.b] ++ Opt.r :: [Opt.v, Opt.j])).forward = false ∧
     (parseOpts ([Opt.b] ++ Opt.r :: [Opt.v, Opt.j])).revcomp = true) ∧
    ((parseOpts ([Opt.b] ++ Opt.b :: [Opt.v, Opt.j])).forward = true ∧
     (parseOpts ([Opt.b] ++ Opt.b :: [Opt.v, Opt.j])).revcomp = true) :=
  claim_C8 [Opt.b] [Opt.v, Opt.j] (by decide)

/-- Claim C10.  In join mode with exactly one positional path the
file-reading loop also reads standard input (`"-"`) as a second joined
input: `minfiles` starts at 2 in join mode and `"-"` is substituted when the
path list runs out. -/
theorem claim_C10 (p : String) : inputsRead true [p] = [p, "-"] := by
  unfold inputsRead
  rw [fileLoop]
  norm_num
  rw [fileLoop]
  norm_num
  rw [fileLoop]
  norm_num

end TUMmer
